import Mathlib

/-!
Verification development for the crema caching library core.

This file shallowly embeds the storage codec (codec.go) and the sharded
singleflight loader (loader.go) of the crema repository, and proves the
frozen specification claims about them.

Modelling conventions:
  * Go byte slices are `List Nat` (each element < 256 where it matters;
    the code only ever compares frame bytes against 0x00 / 0x01).
  * Go `int` / `int64` are `Int`; lengths coerce from `Nat`.
  * Fallible Go functions returning `(T, error)` become either
    `Option T` (callers only use the value when the error is nil) or an
    explicit pair `T × Option Err` when the claim talks about the value
    returned alongside an error.
  * External collaborators (zlib, encoding/json, maphash) are parameters
    of the embedded functions, constrained by hypotheses only where a
    claim presupposes their contract (e.g. a round-tripping inner codec).
  * The buffer pool in codec.go is memory discipline only: it never
    changes the bytes produced or consumed, so the byte-level functions
    below are its value semantics.
-/

/-- CacheObject carries the user payload and its absolute expiry
(milliseconds since the Unix epoch), exactly as in object.go / codec.go. -/
structure CacheObject (V : Type) where
  Value : V
  ExpireAtMillis : Int
deriving DecidableEq, Repr

/-- The Go zero value `CacheObject[V]{}`: zero payload, zero expiry. -/
def zeroCacheObject {V : Type} [Inhabited V] : CacheObject V :=
  { Value := default, ExpireAtMillis := 0 }

/-- Error values that the codec paths of codec.go can produce.
`decompressZeroLength` is the sentinel `ErrDecompressZeroLengthData`;
`unsupportedSentinel` is the declared sentinel `ErrUnsupportedCompressionTypeID`;
`unsupportedFmt id` is the fresh error built by
`fmt.Errorf("unsupported compression type: %d", compressionTypeID)`;
`zlibErr` stands for any error surfaced by the zlib reader;
`innerErr` stands for any error returned by an inner codec. -/
inductive CodecErr where
  | decompressZeroLength
  | unsupportedSentinel
  | unsupportedFmt (id : Nat)
  | zlibErr
  | innerErr
deriving DecidableEq, Repr

/-- Go `errors.Is` restricted to the error values above: none of them is
built with a `%w` wrap, so `errors.Is` reduces to plain equality. -/
def errorsIs (e target : CodecErr) : Bool := e = target

/-- Embeds `NoopCacheStorageCodec.Encode`: passes the cache object through. -/
def noopEncode {V : Type} (value : CacheObject V) : Option (CacheObject V) :=
  some value

/-- Embeds `NoopCacheStorageCodec.Decode`: passes the cache object through. -/
def noopDecode {V : Type} (data : CacheObject V) : Option (CacheObject V) :=
  some data

/-- The trailing-newline strip in `JSONByteStringCodec.Encode`:
`if len(b) > 0 && b[len(b)-1] == '\n' { b = b[:len(b)-1] }`. -/
def stripTrailingNewline (b : List Nat) : List Nat :=
  match b.getLast? with
  | some 10 => b.dropLast
  | _ => b

/-- Embeds `JSONByteStringCodec.Encode`: run the JSON encoder (html escaping off,
a trailing newline is appended by `json.Encoder.Encode`), then strip the
trailing newline. `encodeJSON` is the stdlib encoder for `CacheObject V`. -/
def jsonEncode {V : Type} (encodeJSON : CacheObject V → Option (List Nat))
    (value : CacheObject V) : Option (List Nat) :=
  match encodeJSON value with
  | none => none
  | some b => some (stripTrailingNewline b)

/-- Embeds `JSONByteStringCodec.Decode`: `json.Unmarshal` into a cache object. -/
def jsonDecode {V : Type} (unmarshal : List Nat → Option (CacheObject V))
    (data : List Nat) : Option (CacheObject V) :=
  unmarshal data

/-- Constant `CompressionTypeIDNone` (0x00). -/
def CompressionTypeIDNone : Nat := 0

/-- Constant `CompressionTypeIDZlib` (0x01). -/
def CompressionTypeIDZlib : Nat := 1

/-- Embeds `binaryCompressionCodec.Encode`. Here `compress` is `compressZlib` writing
to an in-memory buffer (which cannot fail); `innerEnc` is the inner
codec's Encode. The pooled scratch buffer is copied into the fresh
result slice, so the byte-level result is `tag :: payload`. -/
def bcEncode {V : Type} (compressThresholdBytes : Int)
    (compress : List Nat → List Nat)
    (innerEnc : CacheObject V → Option (List Nat))
    (value : CacheObject V) : Option (List Nat) :=
  match innerEnc value with
  | none => none
  | some innerBuf =>
    if compressThresholdBytes < 0 ∨ (innerBuf.length : Int) < compressThresholdBytes then
      some (CompressionTypeIDNone :: innerBuf)
    else
      some (CompressionTypeIDZlib :: compress innerBuf)

/-- Embeds `binaryCompressionCodec.Decode`. Mirrors the Go two-value return
`(CacheObject[V], error)`. `decompress` is `decompressZlib` (which can
fail on corrupt input); `innerDec` is the inner codec's Decode with its
own two-value return. The default switch branch returns the fresh
`fmt.Errorf` error, not the declared sentinel. -/
def bcDecode {V : Type} [Inhabited V]
    (innerDec : List Nat → CacheObject V × Option CodecErr)
    (decompress : List Nat → Option (List Nat))
    (data : List Nat) : CacheObject V × Option CodecErr :=
  match data with
  | [] => (zeroCacheObject, some .decompressZeroLength)
  | compressionTypeID :: compressedData =>
    if compressionTypeID = CompressionTypeIDNone then
      innerDec compressedData
    else if compressionTypeID = CompressionTypeIDZlib then
      match decompress compressedData with
      | none => (zeroCacheObject, some .zlibErr)
      | some plain => innerDec plain
    else
      (zeroCacheObject, some (.unsupportedFmt compressionTypeID))

/-- A toy invertible byte encoding of `CacheObject Nat`, used only to
instantiate hypotheses of the round-trip theorems in their witnesses. -/
def encodeCO (o : CacheObject Nat) : List Nat :=
  [o.Value, o.ExpireAtMillis.toNat, (-o.ExpireAtMillis).toNat]

/-- Inverse of `encodeCO`. -/
def decodeCO (b : List Nat) : Option (CacheObject Nat) :=
  match b with
  | [v, p, n] => some { Value := v, ExpireAtMillis := (p : Int) - (n : Int) }
  | _ => none

theorem decodeCO_encodeCO (o : CacheObject Nat) : decodeCO (encodeCO o) = some o := by
  simp only [encodeCO, decodeCO]
  congr 1
  cases o with
  | mk v e =>
    simp only [CacheObject.mk.injEq, true_and]
    omega

theorem stripTrailingNewline_append (b : List Nat) :
    stripTrailingNewline (b ++ [10]) = b := by
  simp [stripTrailingNewline]

/-- C2: for every threshold T given to NewBinaryCompressionCodec and every
successfully inner-encoded payload of length L: if T < 0 the encoded frame
starts with byte 0x00; if T = 0 it always starts with 0x01; if T > 0 it
starts with 0x01 exactly when L ≥ T and with 0x00 exactly when L < T. -/
theorem bcEncode_threshold_spec {V : Type} (T : Int)
    (compress : List Nat → List Nat)
    (innerEnc : CacheObject V → Option (List Nat))
    (o : CacheObject V) (buf : List Nat)
    (henc : innerEnc o = some buf) :
    (T < 0 → bcEncode T compress innerEnc o = some (CompressionTypeIDNone :: buf)) ∧
    (T = 0 → bcEncode T compress innerEnc o = some (CompressionTypeIDZlib :: compress buf)) ∧
    (0 < T →
      ((T ≤ (buf.length : Int) ↔
          ∃ rest, bcEncode T compress innerEnc o = some (CompressionTypeIDZlib :: rest)) ∧
       ((buf.length : Int) < T ↔
          ∃ rest, bcEncode T compress innerEnc o = some (CompressionTypeIDNone :: rest)))) := by
  refine ⟨?_, ?_, ?_⟩
  · intro hT
    simp [bcEncode, henc, hT]
  · intro hT
    subst hT
    have h1 : ¬((0:Int) < 0 ∨ (buf.length : Int) < 0) := by omega
    simp [bcEncode, henc, h1]
  · intro hT
    have hzo : CompressionTypeIDNone ≠ CompressionTypeIDZlib := by
      simp [CompressionTypeIDNone, CompressionTypeIDZlib]
    constructor
    · constructor
      · intro hle
        have h1 : ¬(T < 0 ∨ (buf.length : Int) < T) := by omega
        exact ⟨compress buf, by simp [bcEncode, henc, h1]⟩
      · rintro ⟨rest, hr⟩
        by_contra hlt
        have h1 : T < 0 ∨ (buf.length : Int) < T := by omega
        simp [bcEncode, henc, h1] at hr
        exact hzo hr.1
    · constructor
      · intro hlt
        have h1 : T < 0 ∨ (buf.length : Int) < T := by omega
        exact ⟨buf, by simp [bcEncode, henc, h1]⟩
      · rintro ⟨rest, hr⟩
        by_contra hge
        have h1 : ¬(T < 0 ∨ (buf.length : Int) < T) := by omega
        simp [bcEncode, henc, h1] at hr
        exact hzo hr.1.symm

/-- Closed witness for `bcEncode_threshold_spec` at a concrete threshold,
inner codec and payload. -/
theorem bcEncode_threshold_spec_witness :
    (0:Int) < 2 ∧
    ((2:Int) ≤ ((encodeCO ⟨5, -3⟩).length : Int) ∧
      ∃ rest, bcEncode 2 (fun l => l) (fun x => some (encodeCO x)) ⟨5, -3⟩ =
        some (CompressionTypeIDZlib :: rest)) := by
  refine ⟨by decide, by decide, ?_⟩
  exact ((bcEncode_threshold_spec 2 (fun l => l) (fun x => some (encodeCO x))
    ⟨5, -3⟩ (encodeCO ⟨5, -3⟩) rfl).2.2 (by decide)).1.mp (by decide)

/-- C9: Decode of an empty (nil or zero-length) input fails with the
`ErrDecompressZeroLengthData` sentinel and returns the zero CacheObject.
The statement holds for every inner decoder, so the inner decoder is
never consulted on this path. -/
theorem bcDecode_empty {V : Type} [Inhabited V]
    (innerDec : List Nat → CacheObject V × Option CodecErr)
    (decompress : List Nat → Option (List Nat)) :
    bcDecode innerDec decompress [] =
      ((zeroCacheObject : CacheObject V), some CodecErr.decompressZeroLength) := rfl

/-- C4 (code evaluated at the failing input): Decode on a frame whose first
byte is 0xff fails, but the returned error is the fresh
`fmt.Errorf("unsupported compression type: %d")` error, which `errors.Is`
does not match against the declared sentinel
`ErrUnsupportedCompressionTypeID` (the sentinel is never returned anywhere
in the repository). -/
theorem bcDecode_unsupported_not_sentinel {V : Type} [Inhabited V]
    (innerDec : List Nat → CacheObject V × Option CodecErr)
    (decompress : List Nat → Option (List Nat)) :
    bcDecode innerDec decompress [255, 0] =
      ((zeroCacheObject : CacheObject V), some (CodecErr.unsupportedFmt 255)) ∧
    errorsIs (CodecErr.unsupportedFmt 255) CodecErr.unsupportedSentinel = false := by
  exact ⟨rfl, rfl⟩

/-- C3: each shipped codec round-trips: NoopCacheStorageCodec always;
JSONByteStringCodec whenever the JSON library round-trips the payload
(the encoder emits the marshalled bytes plus a trailing newline, which
Encode strips); binaryCompressionCodec at any threshold whenever the
inner byte codec round-trips and zlib inflates what it deflated. -/
theorem codec_roundtrips {V : Type} [Inhabited V] :
    (∀ (o : CacheObject V), (noopEncode o).bind noopDecode = some o) ∧
    (∀ (encodeJSON : CacheObject V → Option (List Nat))
       (unmarshal : List Nat → Option (CacheObject V))
       (o : CacheObject V) (mb : List Nat),
       encodeJSON o = some (mb ++ [10]) →
       unmarshal mb = some o →
       (jsonEncode encodeJSON o).bind (jsonDecode unmarshal) = some o) ∧
    (∀ (T : Int) (compress : List Nat → List Nat)
       (decompress : List Nat → Option (List Nat))
       (innerEnc : CacheObject V → Option (List Nat))
       (innerDec : List Nat → CacheObject V × Option CodecErr)
       (o : CacheObject V) (buf : List Nat),
       innerEnc o = some buf →
       innerDec buf = (o, none) →
       decompress (compress buf) = some buf →
       ∃ frame, bcEncode T compress innerEnc o = some frame ∧
         bcDecode innerDec decompress frame = (o, none)) := by
  refine ⟨?_, ?_, ?_⟩
  · intro o
    simp [noopEncode, noopDecode]
  · intro encodeJSON unmarshal o mb henc hrt
    simp [jsonEncode, henc, stripTrailingNewline_append, jsonDecode, hrt]
  · intro T compress decompress innerEnc innerDec o buf henc hdec hzlib
    by_cases hc : T < 0 ∨ (buf.length : Int) < T
    · refine ⟨CompressionTypeIDNone :: buf, ?_, ?_⟩
      · simp [bcEncode, henc, hc]
      · simp [bcDecode, hdec]
    · refine ⟨CompressionTypeIDZlib :: compress buf, ?_, ?_⟩
      · simp [bcEncode, henc, hc]
      · simp [bcDecode, CompressionTypeIDZlib, CompressionTypeIDNone, hzlib, hdec]

/-- Closed witness for `codec_roundtrips` at concrete codecs and a
concrete cache object. -/
theorem codec_roundtrips_witness :
    ((noopEncode (V := Nat) ⟨5, -3⟩).bind noopDecode = some ⟨5, -3⟩) ∧
    ((jsonEncode (fun x => some (encodeCO x ++ [10])) ⟨5, -3⟩).bind
        (jsonDecode decodeCO) = some ⟨5, -3⟩) ∧
    (∃ frame, bcEncode 2 (fun l => l) (fun x => some (encodeCO x)) ⟨5, -3⟩ =
        some frame ∧
      bcDecode
        (fun b => match decodeCO b with
          | some o => (o, none)
          | none => (zeroCacheObject, some CodecErr.innerErr))
        (fun l => some l) frame = (⟨5, -3⟩, none)) := by
  refine ⟨codec_roundtrips.1 ⟨5, -3⟩,
    codec_roundtrips.2.1 _ decodeCO ⟨5, -3⟩ (encodeCO ⟨5, -3⟩) rfl (by decide),
    codec_roundtrips.2.2 2 (fun l => l) (fun l => some l) _ _ ⟨5, -3⟩
      (encodeCO ⟨5, -3⟩) rfl (by decide) rfl⟩

/-!
## Singleflight loader (loader.go)

Go contexts are modelled by the combinator tree actually used by the
code: `context.Background`, `context.WithCancel`, `context.WithoutCancel`
and `context.WithDeadline`/`WithTimeout`. Each cancellable node carries a
handle id; a context is "done" relative to the set of fired cancel
handles and the current wall clock.

Inflight records live on a heap addressed by natural-number pointers, so
Go's pointer aliasing (the shard map and every waiter reference the same
record) and the pointer comparison `current == inf` in releaseInflight
are represented exactly. `sync.Pool` reuse resets every field of a
record in `newInflight`, so a recycled record is value-identical to a
fresh one; the model allocates a fresh pointer per lifecycle and logs
each `pool.Put` call in `puts`.
-/

/-- Go context combinators used by loader.go. -/
inductive Ctx where
  | background : Ctx
  | withCancel : Ctx → Nat → Ctx
  | withoutCancel : Ctx → Ctx
  | withDeadline : Ctx → Nat → Nat → Ctx
deriving DecidableEq, Repr

/-- Embeds `ctx.Deadline()`: `WithoutCancel` drops the parent deadline,
`WithDeadline` caps it. -/
def Ctx.deadline : Ctx → Option Nat
  | .background => none
  | .withCancel p _ => p.deadline
  | .withoutCancel _ => none
  | .withDeadline p _ d =>
    match p.deadline with
    | none => some d
    | some pd => some (min pd d)

/-- Whether `ctx.Done()` has fired, given the set of fired cancel handles
and the current time in milliseconds. `WithoutCancel` detaches from the
parent entirely. -/
def Ctx.isDone (cancelled : List Nat) (now : Nat) : Ctx → Bool
  | .background => false
  | .withCancel p id => cancelled.contains id || p.isDone cancelled now
  | .withoutCancel _ => false
  | .withDeadline p id d =>
    cancelled.contains id || decide (d ≤ now) || p.isDone cancelled now

/-- The load context built by `newInflight` in src/loader.go:
`ctx, cancel := context.WithCancel(context.WithoutCancel(ctx))`.
`id` is the fresh cancel handle owned by the record. -/
def newLoadContext (callerCtx : Ctx) (id : Nat) : Ctx :=
  .withCancel (.withoutCancel callerCtx) id

/-- Modelled from the spec: the load-context construction with the
configured `maxLoadTimeout`, which is missing from src/loader.go (the
repository's loader tests construct the loader as
`newSingleflightLoader(metrics, timeout)` and doc.go documents
`WithMaxLoadTimeout`, but the version of loader.go under src/ has no
timeout parameter). Per the spec, the loadContext is derived from a
blank parent and, if `maxLoadTimeout > 0`, bounded by that deadline; a
zero or unset timeout means no deadline. -/
def newLoadContextSpec (callerCtx : Ctx) (maxLoadTimeout : Int)
    (id now : Nat) : Ctx :=
  if 0 < maxLoadTimeout then
    .withDeadline (.withoutCancel callerCtx) id (now + maxLoadTimeout.toNat)
  else
    .withCancel (.withoutCancel callerCtx) id

/-- The `inflight[V]` record of loader.go. `done` stands for both the
`done` flag and the closedness of `doneCh`: the two are set together
under the shard lock in `finishInflight` and nowhere else.
`cancelId` is the cancel handle of `ctx` held by the record's `cancel`. -/
structure Inflight (V E : Type) where
  ctx : Ctx
  cancelId : Nat
  refs : Int
  val : V
  err : Option E
  done : Bool
  pooled : Bool
deriving DecidableEq, Repr

/-- Embeds `newInflight`: take a record from the pool and reset every field
(`refs = 1`, zero value, nil error, fresh doneCh, not done, not pooled,
fresh detached context). -/
def newInflightRec {V E : Type} [Inhabited V] (callerCtx : Ctx) (id : Nat) :
    Inflight V E :=
  { ctx := newLoadContext callerCtx id
    cancelId := id
    refs := 1
    val := default
    err := none
    done := false
    pooled := false }

/-- State of one singleflight shard plus the observation logs needed by
the claims: `puts` logs every `inflightPool.Put` call (most recent
first), `emits` logs every `RecordLoadConcurrency` value, `cancelledIds`
collects fired cancel handles. `next` is the allocator for fresh record
pointers and cancel handles. -/
structure LoaderState (V E : Type) where
  heap : Nat → Inflight V E
  map : String → Option Nat
  next : Nat
  puts : List Nat
  emits : List Int
  cancelledIds : List Nat

/-- Point update of the heap. -/
def heapSet {V E : Type} (h : Nat → Inflight V E) (p : Nat)
    (r : Inflight V E) : Nat → Inflight V E :=
  fun q => if q = p then r else h q

/-- Point update of the shard map. -/
def mapSet (m : String → Option Nat) (k : String) (p : Nat) :
    String → Option Nat :=
  fun k' => if k' = k then some p else m k'

/-- Embeds `delete(shard.inflight, key)`. -/
def mapDel (m : String → Option Nat) (k : String) : String → Option Nat :=
  fun k' => if k' = k then none else m k'

/-- The conditional removal in `releaseInflight`: delete the map entry
only when it still points at this exact record
(`if current, ok := shard.inflight[key]; ok && current == inf`). -/
def mapDelIfCurrent (m : String → Option Nat) (k : String) (p : Nat) :
    String → Option Nat :=
  if m k = some p then mapDel m k else m

/-- Result of `acquireInflight`: the record pointer handed to the caller,
the leader flag, and the updated shard state. -/
structure AcquireResult (V E : Type) where
  ptr : Nat
  leader : Bool
  state : LoaderState V E

/-- Embeds `singleflightLoader.acquireInflight` under the shard lock: if the map
entry's doneCh is already closed, supersede it with a fresh record; if
there is no entry, install a fresh record; otherwise increment `refs` on
the shared record and join as follower. -/
def acquireInflight {V E : Type} [Inhabited V] (s : LoaderState V E)
    (callerCtx : Ctx) (key : String) : AcquireResult V E :=
  match s.map key with
  | some p =>
    if (s.heap p).done then
      let q := s.next
      let r : Inflight V E := newInflightRec callerCtx q
      { ptr := q
        leader := true
        state := { s with
          heap := heapSet s.heap q r
          map := mapSet s.map key q
          next := s.next + 1 } }
    else
      let r := s.heap p
      { ptr := p
        leader := false
        state := { s with
          heap := heapSet s.heap p { r with refs := r.refs + 1 } } }
  | none =>
    let q := s.next
    let r : Inflight V E := newInflightRec callerCtx q
    { ptr := q
      leader := true
      state := { s with
        heap := heapSet s.heap q r
        map := mapSet s.map key q
        next := s.next + 1 } }

/-- The operations of the loader that touch a shard's state, each one a
critical section of loader.go: `acquire` is `acquireInflight` (the
spawned fetch is the leader result of the same call), `finish` is
`finishInflight` run by a completing fetch on record `p`, and `release`
is `releaseInflight` run by a caller leaving record `p` under `key`. -/
inductive LoaderOp (V E : Type) where
  | acquire (callerCtx : Ctx) (key : String)
  | finish (p : Nat) (v : V) (e : Option E)
  | release (key : String) (p : Nat)

/-- One loader step. `finish` mirrors `finishInflight`: snapshot `refs`
under the lock, store the result, set `done` and close the doneCh, pool
the record if `refs <= 0 && !pooled`, and emit
`RecordLoadConcurrency(refs)` after unlocking. `release` mirrors
`releaseInflight`: decrement `refs`; if it reached zero, remove the map
entry when it still points at this exact record, fire `cancel`, and pool
the record if `done && !pooled`. -/
def applyOp {V E : Type} [Inhabited V] (s : LoaderState V E) :
    LoaderOp V E → LoaderState V E
  | .acquire callerCtx key => (acquireInflight s callerCtx key).state
  | .finish p v e =>
    let r := s.heap p
    let r1 : Inflight V E := { r with val := v, err := e, done := true }
    if r1.refs ≤ 0 ∧ r1.pooled = false then
      { s with
        heap := heapSet s.heap p { r1 with pooled := true }
        puts := p :: s.puts
        emits := r.refs :: s.emits }
    else
      { s with heap := heapSet s.heap p r1, emits := r.refs :: s.emits }
  | .release key p =>
    let r := s.heap p
    let r1 : Inflight V E := { r with refs := r.refs - 1 }
    if r1.refs ≤ 0 then
      let m1 := mapDelIfCurrent s.map key p
      let cancelled1 := r1.cancelId :: s.cancelledIds
      if r1.done = true ∧ r1.pooled = false then
        { s with
          heap := heapSet s.heap p { r1 with pooled := true }
          map := m1
          puts := p :: s.puts
          cancelledIds := cancelled1 }
      else
        { s with
          heap := heapSet s.heap p r1
          map := m1
          cancelledIds := cancelled1 }
    else
      { s with heap := heapSet s.heap p r1 }

/-- Run a sequence of loader operations. -/
def runOps {V E : Type} [Inhabited V] (s : LoaderState V E) :
    List (LoaderOp V E) → LoaderState V E
  | [] => s
  | op :: rest => runOps (applyOp s op) rest

/-- An operation is valid when every record pointer it names was actually
allocated: `finishInflight` and `releaseInflight` are only ever called
with pointers previously returned by `acquireInflight`. -/
def validOp {V E : Type} (s : LoaderState V E) : LoaderOp V E → Bool
  | .acquire _ _ => true
  | .finish p _ _ => decide (p < s.next)
  | .release _ p => decide (p < s.next)

/-- A trace is valid when each step is valid in the state it runs from. -/
def validTrace {V E : Type} [Inhabited V] (s : LoaderState V E) :
    List (LoaderOp V E) → Bool
  | [] => true
  | op :: rest => validOp s op && validTrace (applyOp s op) rest

/-- The shard state at loader construction: empty map, nothing allocated,
no observations. -/
def initLoaderState {V E : Type} [Inhabited V] : LoaderState V E :=
  { heap := fun _ => { ctx := .background, cancelId := 0, refs := 0,
                       val := default, err := none, done := false,
                       pooled := false }
    map := fun _ => none
    next := 0
    puts := []
    emits := []
    cancelledIds := [] }

/-- Number of `pool.Put` calls a state has logged for record `p`. -/
def putsCount {V E : Type} (s : LoaderState V E) (p : Nat) : Nat :=
  s.puts.count p

/-- The tail of `singleflightLoader.load` once the caller wakes on
`doneCh`: read `val` and `err` from the shared record; a non-nil error
is returned with the zero value of V, otherwise the value is returned
with a nil error; the caller's leader flag is passed through. -/
def loadResult {V E : Type} [Inhabited V] (r : Inflight V E)
    (leader : Bool) : V × Bool × Option E :=
  match r.err with
  | some e => (default, leader, some e)
  | none => (r.val, leader, none)

/-- Embeds `directLoader.load`: run the fetch synchronously on the caller's
context; on error return the zero value, the error and `leader = true`;
otherwise the value and `leader = true`. -/
def directLoad {V E : Type} [Inhabited V] (loader : Ctx → V × Option E)
    (ctx : Ctx) : V × Bool × Option E :=
  match loader ctx with
  | (_, some e) => (default, true, some e)
  | (v, none) => (v, true, none)

/-- A concrete key used by closed witnesses and counterexamples. -/
def sampleKey : String := "k"

/-- C1: under the shard lock, a caller with no map entry for its key, or
with an entry whose doneCh is already closed, becomes the leader and a
fresh Inflight with `refs = 1` is installed (superseding any done entry);
otherwise the existing entry's `refs` is incremented and the caller is a
follower. `load` spawns the fetch goroutine exactly when the returned
leader flag is true (src/loader.go line 152), so no fetch is spawned for
a follower. -/
theorem acquireInflight_spec {V E : Type} [Inhabited V]
    (s : LoaderState V E) (ctx : Ctx) (key : String) :
    ((s.map key = none ∨ ∃ p, s.map key = some p ∧ (s.heap p).done = true) →
      (acquireInflight s ctx key).leader = true ∧
      (acquireInflight s ctx key).ptr = s.next ∧
      (acquireInflight s ctx key).state.heap s.next =
        (newInflightRec ctx s.next : Inflight V E) ∧
      ((acquireInflight s ctx key).state.heap s.next).refs = 1 ∧
      (acquireInflight s ctx key).state.map key = some s.next) ∧
    (∀ p, s.map key = some p → (s.heap p).done = false →
      (acquireInflight s ctx key).leader = false ∧
      (acquireInflight s ctx key).ptr = p ∧
      (acquireInflight s ctx key).state.heap p =
        { s.heap p with refs := (s.heap p).refs + 1 } ∧
      (acquireInflight s ctx key).state.map = s.map ∧
      (acquireInflight s ctx key).state.next = s.next) := by
  constructor
  · rintro (h | ⟨p, hp, hdone⟩)
    · simp [acquireInflight, h, heapSet, mapSet, newInflightRec]
    · simp [acquireInflight, hp, hdone, heapSet, mapSet, newInflightRec]
  · intro p hp hnd
    simp [acquireInflight, hp, hnd, heapSet]

/-- Closed witness for `acquireInflight_spec`: the very first caller on a
fresh shard becomes leader of a fresh record with one reference. -/
theorem acquireInflight_spec_witness :
    (acquireInflight (initLoaderState (V := Nat) (E := Unit))
        .background sampleKey).leader = true ∧
    ((acquireInflight (initLoaderState (V := Nat) (E := Unit))
        .background sampleKey).state.heap 0).refs = 1 ∧
    (acquireInflight (initLoaderState (V := Nat) (E := Unit))
        .background sampleKey).state.map sampleKey = some 0 := by
  have h := (acquireInflight_spec (initLoaderState (V := Nat) (E := Unit))
    .background sampleKey).1 (Or.inl rfl)
  exact ⟨h.1, h.2.2.2.1, h.2.2.2.2⟩

/-- Every `finishInflight` appends exactly one `RecordLoadConcurrency`
observation, whose value is the `refs` snapshot taken under the lock. -/
theorem finish_emits_snapshot {V E : Type} [Inhabited V]
    (s : LoaderState V E) (p : Nat) (v : V) (e : Option E) :
    (applyOp s (.finish p v e)).emits = (s.heap p).refs :: s.emits := by
  simp only [applyOp]
  split <;> rfl

/-- C6 (amended): for every fetch, `RecordLoadConcurrency` is emitted
exactly once, at completion, with the `refs` count observed under the
shard lock; that value is ≥ 1 whenever at least one caller still holds a
reference when the result is stored (it is 0 when every caller released
before completion). -/
theorem finish_emits_refs {V E : Type} [Inhabited V]
    (s : LoaderState V E) (p : Nat) (v : V) (e : Option E) :
    (applyOp s (.finish p v e)).emits = (s.heap p).refs :: s.emits ∧
    (1 ≤ (s.heap p).refs →
      ∃ x, (applyOp s (.finish p v e)).emits = x :: s.emits ∧ 1 ≤ x) := by
  refine ⟨finish_emits_snapshot s p v e, fun h => ?_⟩
  exact ⟨(s.heap p).refs, finish_emits_snapshot s p v e, h⟩

/-- Closed witness for `finish_emits_refs`: a leader that still holds its
reference at completion yields an observation ≥ 1. -/
theorem finish_emits_refs_witness :
    ∃ x, (applyOp
        (applyOp (initLoaderState (V := Nat) (E := Unit))
          (.acquire .background sampleKey))
        (.finish 0 42 none)).emits = x ::
          (applyOp (initLoaderState (V := Nat) (E := Unit))
            (.acquire .background sampleKey)).emits ∧ 1 ≤ x := by
  exact (finish_emits_refs _ 0 42 none).2 (by decide)

/-- The trace exhibiting the counterexample to C6 as stated: a single
caller acquires, is cancelled and releases its reference, and only then
does the fetch complete. -/
def abandonedLeaderTrace : List (LoaderOp Nat Unit) :=
  [.acquire .background sampleKey, .release sampleKey 0, .finish 0 42 none]

/-- C6 counterexample: on `abandonedLeaderTrace` (a valid trace) the
fetch's completion emits `RecordLoadConcurrency(0)`, refuting the claim
that every emitted value is ≥ 1. -/
theorem finish_emits_zero_cx :
    validTrace (initLoaderState (V := Nat) (E := Unit))
      abandonedLeaderTrace = true ∧
    (runOps (initLoaderState (V := Nat) (E := Unit))
      abandonedLeaderTrace).emits = [0] ∧
    ¬(1 ≤ (0 : Int)) := by
  refine ⟨by decide, by decide, by decide⟩

/-- C7: the loadContext of a new Inflight is detached from the caller's
cancellation (its doneness depends only on the record's own cancel
handle and, in the spec-modelled timeout variant, its own deadline);
with a configured `maxLoadTimeout > 0` the loadContext carries the
deadline `now + maxLoadTimeout`, and with a zero or unset timeout it has
no deadline. A timeout of 0 makes the spec-modelled constructor coincide
with the `newInflight` of src/loader.go. -/
theorem loadContext_detached_and_deadline :
    (∀ (callerCtx : Ctx) (id : Nat) (cancelled : List Nat) (now : Nat),
      (newLoadContext callerCtx id).isDone cancelled now =
        cancelled.contains id) ∧
    (∀ (callerCtx : Ctx) (id : Nat),
      (newLoadContext callerCtx id).deadline = none) ∧
    (∀ (callerCtx : Ctx) (T : Int) (id nowStart : Nat),
      (newLoadContextSpec callerCtx T id nowStart).deadline =
        if 0 < T then some (nowStart + T.toNat) else none) ∧
    (∀ (callerCtx : Ctx) (T : Int) (id nowStart : Nat)
       (cancelled : List Nat) (now : Nat),
      (newLoadContextSpec callerCtx T id nowStart).isDone cancelled now =
        (cancelled.contains id ||
          (decide (0 < T) && decide (nowStart + T.toNat ≤ now)))) ∧
    (∀ (callerCtx : Ctx) (id nowStart : Nat),
      newLoadContextSpec callerCtx 0 id nowStart =
        newLoadContext callerCtx id) := by
  refine ⟨?_, ?_, ?_, ?_, ?_⟩
  · intro callerCtx id cancelled now
    simp [newLoadContext, Ctx.isDone]
  · intro callerCtx id
    simp [newLoadContext, Ctx.deadline]
  · intro callerCtx T id nowStart
    by_cases hT : 0 < T <;> simp [newLoadContextSpec, Ctx.deadline, hT]
  · intro callerCtx T id nowStart cancelled now
    by_cases hT : 0 < T <;> simp [newLoadContextSpec, Ctx.isDone, hT]
  · intro callerCtx id nowStart
    simp [newLoadContextSpec, newLoadContext]

/-- Constant `minShardCount` from loader.go. -/
def minShardCount : Nat := 8

/-- Constant `maxShardCount` from loader.go. -/
def maxShardCount : Nat := 32

/-- Constant `shardMultiplier` from loader.go. -/
def shardMultiplier : Nat := 2

/-- Embeds `shardCount = max(min(runtime.GOMAXPROCS(0)*shardMultiplier,
maxShardCount), minShardCount)`: a package-level value computed once at
startup from the CPU parallelism and fixed thereafter. -/
def shardCount (gomaxprocs : Nat) : Nat :=
  max (min (gomaxprocs * shardMultiplier) maxShardCount) minShardCount

/-- The spec's `clamp(x, lo, hi)`, written from the spec's words for the
refinement comparison with `shardCount`. -/
def specClamp (x lo hi : Nat) : Nat := min (max x lo) hi

/-- Embeds `singleflightLoader.shardFor`: index
`hashKey(key) % uint64(len(l.shards))` into the shard array, whose
length is `shardCount`. `hash` is `maphash.String` with the fixed
process-wide seed; hash values and the count are below 2^64, so the
uint64 modulo is the natural-number modulo. -/
def shardFor (hash : String → Nat) (gomaxprocs : Nat) (key : String) : Nat :=
  hash key % shardCount gomaxprocs

/-- C8: the shard array length equals `clamp(GOMAXPROCS*2, 8, 32)` (and
so always lies in [8, 32]); the shard selected for a key is index
`stableStringHash(key) mod shardCount`, a valid index; and the mapping
is deterministic: equal keys select equal shards. -/
theorem shardCount_shardFor_spec :
    (∀ p : Nat, shardCount p =
      specClamp (p * shardMultiplier) minShardCount maxShardCount) ∧
    (∀ p : Nat, minShardCount ≤ shardCount p ∧ shardCount p ≤ maxShardCount) ∧
    (∀ (hash : String → Nat) (p : Nat) (key : String),
      shardFor hash p key = hash key % shardCount p ∧
      shardFor hash p key < shardCount p) ∧
    (∀ (hash : String → Nat) (p : Nat) (k1 k2 : String),
      k1 = k2 → shardFor hash p k1 = shardFor hash p k2) := by
  refine ⟨?_, ?_, ?_, ?_⟩
  · intro p
    simp only [shardCount, specClamp, minShardCount, maxShardCount,
      shardMultiplier]
    omega
  · intro p
    simp only [shardCount, minShardCount, maxShardCount, shardMultiplier]
    omega
  · intro hash p key
    refine ⟨rfl, ?_⟩
    apply Nat.mod_lt
    simp only [shardCount, minShardCount, maxShardCount, shardMultiplier]
    omega
  · intro hash p k1 k2 h
    rw [h]

/-- Closed witness for `shardCount_shardFor_spec` at a concrete hash,
parallelism and key. -/
theorem shardCount_shardFor_spec_witness :
    sampleKey = sampleKey ∧
    shardFor (fun _ => 77) 4 sampleKey = shardFor (fun _ => 77) 4 sampleKey := by
  exact ⟨rfl, shardCount_shardFor_spec.2.2.2 (fun _ => 77) 4
    sampleKey sampleKey rfl⟩

/-- C10: whenever the fetch completes with a non-nil error, the
singleflight `load` returns the zero value of V together with the
caller's leader flag and that error to every caller reading the finished
record (whatever value the fetch produced alongside the error), and
`directLoader.load` does the same synchronously. -/
theorem load_error_returns_zero {V E : Type} [Inhabited V] :
    (∀ (s : LoaderState V E) (p : Nat) (v : V) (e : E) (leader : Bool),
      loadResult ((applyOp s (.finish p v (some e))).heap p) leader =
        ((default : V), leader, some e)) ∧
    (∀ (ctx : Ctx) (v : V) (e : E),
      directLoad (fun _ => (v, some e)) ctx = ((default : V), true, some e)) := by
  constructor
  · intro s p v e leader
    simp only [applyOp]
    split <;> simp [loadResult, heapSet]
  · intro ctx v e
    rfl

/-- The inductive invariant behind claim C5: every record has been pooled
at most once, an un-pooled record has never been pooled, and records not
yet allocated are untouched. -/
def PoolInv {V E : Type} (s : LoaderState V E) : Prop :=
  (∀ p, putsCount s p ≤ 1) ∧
  (∀ p, (s.heap p).pooled = false → putsCount s p = 0) ∧
  (∀ p, s.next ≤ p → (s.heap p).pooled = false ∧ putsCount s p = 0)

theorem poolInv_init {V E : Type} [Inhabited V] :
    PoolInv (initLoaderState (V := V) (E := E)) := by
  refine ⟨fun p => ?_, fun p _ => ?_, fun p _ => ?_⟩ <;>
    simp [putsCount, initLoaderState]

theorem poolInv_set_no_put {V E : Type} (s t : LoaderState V E) (p : Nat)
    (r : Inflight V E) (hh : t.heap = heapSet s.heap p r) (hn : t.next = s.next)
    (hp : t.puts = s.puts) (hpool : r.pooled = (s.heap p).pooled)
    (hinv : PoolInv s) : PoolInv t := by
  obtain ⟨h1, h2, h3⟩ := hinv
  refine ⟨fun q => ?_, fun q hq => ?_, fun q hq => ?_⟩
  · simpa [putsCount, hp] using h1 q
  · rw [hh] at hq
    by_cases hqp : q = p
    · subst hqp
      have hq' : (s.heap q).pooled = false := by
        rw [← hpool]
        simpa [heapSet] using hq
      simpa [putsCount, hp] using h2 q hq'
    · have hq' : (s.heap q).pooled = false := by
        simpa [heapSet, hqp] using hq
      simpa [putsCount, hp] using h2 q hq'
  · rw [hn] at hq
    have hfs := h3 q hq
    refine ⟨?_, ?_⟩
    · rw [hh]
      by_cases hqp : q = p
      · subst hqp
        simpa [heapSet, hpool] using hfs.1
      · simpa [heapSet, hqp] using hfs.1
    · simpa [putsCount, hp] using hfs.2

theorem poolInv_set_put {V E : Type} (s t : LoaderState V E) (p : Nat)
    (r : Inflight V E) (hh : t.heap = heapSet s.heap p r) (hn : t.next = s.next)
    (hp : t.puts = p :: s.puts) (hpn : p < s.next)
    (hpooled : (s.heap p).pooled = false) (hr : r.pooled = true)
    (hinv : PoolInv s) : PoolInv t := by
  obtain ⟨h1, h2, h3⟩ := hinv
  have hcp : s.puts.count p = 0 := h2 p hpooled
  refine ⟨fun q => ?_, fun q hq => ?_, fun q hq => ?_⟩
  · by_cases hqp : q = p
    · subst hqp
      simp [putsCount, hp, List.count_cons, hcp]
    · simpa [putsCount, hp, List.count_cons, hqp] using h1 q
  · rw [hh] at hq
    by_cases hqp : q = p
    · subst hqp
      simp [heapSet, hr] at hq
    · have hq' : (s.heap q).pooled = false := by
        simpa [heapSet, hqp] using hq
      simpa [putsCount, hp, List.count_cons, hqp] using h2 q hq'
  · rw [hn] at hq
    have hqp : q ≠ p := by omega
    have hfs := h3 q hq
    refine ⟨?_, ?_⟩
    · rw [hh]
      simpa [heapSet, hqp] using hfs.1
    · simpa [putsCount, hp, List.count_cons, hqp] using hfs.2

theorem poolInv_alloc {V E : Type} (s t : LoaderState V E) (r : Inflight V E)
    (hh : t.heap = heapSet s.heap s.next r) (hn : t.next = s.next + 1)
    (hp : t.puts = s.puts) (_hr : r.pooled = false) (hinv : PoolInv s) :
    PoolInv t := by
  obtain ⟨h1, h2, h3⟩ := hinv
  refine ⟨fun q => ?_, fun q hq => ?_, fun q hq => ?_⟩
  · simpa [putsCount, hp] using h1 q
  · rw [hh] at hq
    by_cases hqn : q = s.next
    · have hq2 : s.next ≤ q := by omega
      simpa [putsCount, hp] using (h3 q hq2).2
    · have hq' : (s.heap q).pooled = false := by
        simpa [heapSet, hqn] using hq
      simpa [putsCount, hp] using h2 q hq'
  · rw [hn] at hq
    have hq' : s.next ≤ q := by omega
    have hqn : q ≠ s.next := by omega
    refine ⟨?_, ?_⟩
    · rw [hh]
      simpa [heapSet, hqn] using (h3 q hq').1
    · simpa [putsCount, hp] using (h3 q hq').2

theorem poolInv_step {V E : Type} [Inhabited V] (s : LoaderState V E)
    (op : LoaderOp V E) (hv : validOp s op = true) (hinv : PoolInv s) :
    PoolInv (applyOp s op) := by
  cases op with
  | acquire ctx key =>
    simp only [applyOp]
    cases hmk : s.map key with
    | none =>
      simp only [acquireInflight, hmk]
      exact poolInv_alloc s _ _ rfl rfl rfl rfl hinv
    | some p0 =>
      by_cases hd : (s.heap p0).done = true
      · simp only [acquireInflight, hmk, hd, if_true]
        exact poolInv_alloc s _ _ rfl rfl rfl rfl hinv
      · simp only [acquireInflight, hmk, hd, if_false]
        exact poolInv_set_no_put s _ p0 _ rfl rfl rfl rfl hinv
  | finish p v e =>
    have hpn : p < s.next := by simpa [validOp] using hv
    simp only [applyOp]
    split_ifs with hc
    · exact poolInv_set_put s _ p _ rfl rfl rfl hpn hc.2 rfl hinv
    · exact poolInv_set_no_put s _ p _ rfl rfl rfl rfl hinv
  | release key p =>
    have hpn : p < s.next := by simpa [validOp] using hv
    simp only [applyOp]
    split_ifs with hA hB
    · exact poolInv_set_put s _ p _ rfl rfl rfl hpn hB.2 rfl hinv
    · exact poolInv_set_no_put s _ p _ rfl rfl rfl rfl hinv
    · exact poolInv_set_no_put s _ p _ rfl rfl rfl rfl hinv

theorem poolInv_run {V E : Type} [Inhabited V] (ops : List (LoaderOp V E)) :
    ∀ s : LoaderState V E, PoolInv s → validTrace s ops = true →
      PoolInv (runOps s ops) := by
  induction ops with
  | nil => exact fun s h _ => h
  | cons op rest ih =>
    intro s h hv
    simp only [validTrace, Bool.and_eq_true] at hv
    exact ih _ (poolInv_step s op hv.1 h) hv.2

theorem acquire_state_puts {V E : Type} [Inhabited V] (s : LoaderState V E)
    (ctx : Ctx) (key : String) :
    (acquireInflight s ctx key).state.puts = s.puts := by
  cases hmk : s.map key with
  | none => simp only [acquireInflight, hmk]
  | some p0 =>
    simp only [acquireInflight, hmk]
    split <;> rfl

/-- C5: a record is handed to `inflightPool.Put` at most once along any
valid trace; a `Put` happens only on the step that flips `pooled` from
false to true, and at that step the record is `done` with no outstanding
references (`refs ≤ 0`); and once `pooled` is true, `finishInflight` and
`releaseInflight` keep it true and never `Put` the record again. -/
theorem inflight_pooled_once {V E : Type} [Inhabited V] :
    (∀ ops : List (LoaderOp V E), validTrace initLoaderState ops = true →
      ∀ p, putsCount (runOps initLoaderState ops) p ≤ 1) ∧
    (∀ (s : LoaderState V E) (op : LoaderOp V E) (p : Nat),
      putsCount s p < putsCount (applyOp s op) p →
      (s.heap p).pooled = false ∧
      ((applyOp s op).heap p).pooled = true ∧
      ((applyOp s op).heap p).done = true ∧
      ((applyOp s op).heap p).refs ≤ 0) ∧
    (∀ (s : LoaderState V E) (p q : Nat) (v : V) (e : Option E),
      (s.heap p).pooled = true →
      ((applyOp s (.finish q v e)).heap p).pooled = true ∧
      putsCount (applyOp s (.finish q v e)) p = putsCount s p) ∧
    (∀ (s : LoaderState V E) (key : String) (p q : Nat),
      (s.heap p).pooled = true →
      ((applyOp s (.release key q)).heap p).pooled = true ∧
      putsCount (applyOp s (.release key q)) p = putsCount s p) := by
  refine ⟨?_, ?_, ?_, ?_⟩
  · intro ops hv p
    exact (poolInv_run ops initLoaderState poolInv_init hv).1 p
  · intro s op p hlt
    cases op with
    | acquire ctx key =>
      have heq : putsCount (applyOp s (.acquire ctx key)) p = putsCount s p := by
        simp [putsCount, applyOp, acquire_state_puts]
      omega
    | finish q v e =>
      simp only [applyOp] at hlt ⊢
      split_ifs at hlt ⊢ with hc
      · by_cases hqp : p = q
        · refine ⟨?_, ?_, ?_, ?_⟩
          · rw [hqp]
            exact hc.2
          · simp [heapSet, hqp]
          · simp [heapSet, hqp]
          · simpa [heapSet, hqp] using hc.1
        · exfalso
          simp [putsCount, List.count_cons, hqp] at hlt
      · exfalso
        simp [putsCount] at hlt
    | release key q =>
      simp only [applyOp] at hlt ⊢
      split_ifs at hlt ⊢ with hA hB
      · by_cases hqp : p = q
        · refine ⟨?_, ?_, ?_, ?_⟩
          · rw [hqp]
            exact hB.2
          · simp [heapSet, hqp]
          · simpa [heapSet, hqp] using hB.1
          · simpa [heapSet, hqp] using hA
        · exfalso
          simp [putsCount, List.count_cons, hqp] at hlt
      · exfalso
        simp [putsCount] at hlt
      · exfalso
        simp [putsCount] at hlt
  · intro s p q v e hpooled
    have hqp : ∀ h : p = q, (s.heap q).pooled = true := fun h => h ▸ hpooled
    constructor
    · simp only [applyOp]
      split_ifs with hc
      · by_cases h : p = q
        · exact absurd (hqp h) (by simp [hc.2])
        · simpa [heapSet, h] using hpooled
      · by_cases h : p = q
        · simpa [heapSet, h] using hqp h
        · simpa [heapSet, h] using hpooled
    · simp only [applyOp]
      split_ifs with hc
      · have h : p ≠ q := by
          intro h
          exact absurd (hqp h) (by simp [hc.2])
        simp [putsCount, List.count_cons, h]
      · simp [putsCount]
  · intro s key p q hpooled
    have hqp : ∀ h : p = q, (s.heap q).pooled = true := fun h => h ▸ hpooled
    constructor
    · simp only [applyOp]
      split_ifs with hA hB
      · by_cases h : p = q
        · exact absurd (hqp h) (by simp [hB.2])
        · simpa [heapSet, h] using hpooled
      · by_cases h : p = q
        · simpa [heapSet, h] using hqp h
        · simpa [heapSet, h] using hpooled
      · by_cases h : p = q
        · simpa [heapSet, h] using hqp h
        · simpa [heapSet, h] using hpooled
    · simp only [applyOp]
      split_ifs with hA hB
      · have h : p ≠ q := by
          intro h
          exact absurd (hqp h) (by simp [hB.2])
        simp [putsCount, List.count_cons, h]
      · simp [putsCount]
      · simp [putsCount]

/-- Closed witness for `inflight_pooled_once`: along the trace acquire,
finish, release of a single record, the record is pooled exactly once. -/
theorem inflight_pooled_once_witness :
    validTrace (initLoaderState (V := Nat) (E := Unit))
      [.acquire .background sampleKey, .finish 0 7 none,
       .release sampleKey 0] = true ∧
    putsCount (runOps (initLoaderState (V := Nat) (E := Unit))
      [.acquire .background sampleKey, .finish 0 7 none,
       .release sampleKey 0]) 0 ≤ 1 := by
  exact ⟨by decide, inflight_pooled_once.1 _ (by decide) 0⟩
